import Mathlib

/-!
# Verification of `visualise_cameras.py` — coordinate extraction core

Shallow embedding of the coordinate extractor of `visualise_cameras.py`.
Page texts are `List Char`.  The regular expression
`([3-4][0-9][.,][0-9]+)[ \t\r\n]+([6][0-9][.,][0-9]+)` (and its
space-separated variant used on camera lines) is embedded as a
deterministic maximal-munch matcher `findall`; for this pattern,
maximal munch coincides with Python's backtracking search because every
character class involved (digits, the separator classes) is disjoint
from the class that follows it.

Python floats are modelled exactly: every numeric token in scope is a
decimal literal, represented as a mantissa together with its number of
fractional digits (`Dec`), with rational value `val`.  `round(x, 6)`
is modelled by `Dec.toMicro`, the value in micro-degrees rounded half
up (Python's float `round` is half-even on the underlying binary64;
the two agree except on exact decimal ties, which none of the inputs
in this development produce).  Extracted coordinate pairs are pairs of
micro-degree naturals, re-interpreted as rationals via `val6`.
-/

namespace Cameras

abbrev Tok := List Char

/-- The character class `[0-9]`. -/
def isDigit (c : Char) : Bool := 48 ≤ c.toNat && c.toNat ≤ 57

/-- The whitespace class `[ \t\r\n]` separating the two tokens in the
whole-text pattern. -/
def isSepAll (c : Char) : Bool := c = ' ' || c = '\t' || c = '\r' || c = '\n'

/-- The separator class `[ ]` of the line-anchored pattern. -/
def isSepSpace (c : Char) : Bool := c = ' '

/-- Whitespace stripped by Python's `str.strip()` (ASCII part). -/
def isPyWs (c : Char) : Bool :=
  c = ' ' || c = '\t' || c = '\n' || c = '\r' || c = '\x0b' || c = '\x0c'

/-- The class `[3-4]` of leading latitude digits. -/
def isLatStart (c : Char) : Bool := c = '3' || c = '4'

/-- The class `[6]` of leading longitude digits. -/
def isLonStart (c : Char) : Bool := c = '6'

/-- Value of a digit string, most significant digit first. -/
def digitsVal : Tok → ℕ
  | [] => 0
  | c :: cs => (c.toNat - 48) * 10 ^ cs.length + digitsVal cs

/-- An exact decimal number: value `mant / 10 ^ fexp`.  This represents
the Python float parsed from a decimal token exactly. -/
structure Dec where
  mant : ℕ
  fexp : ℕ
  deriving DecidableEq, Repr

/-- Rational value of an exact decimal. -/
def Dec.val (d : Dec) : ℚ := (d.mant : ℚ) / 10 ^ d.fexp

/-- `float(s)` on the token shapes reachable here: an optional integer
part, an optional `'.'` followed by fractional digits; anything else
(in particular an interior space left by a normalizer) fails. -/
def parseFloat (s : Tok) : Option Dec :=
  let ip := s.takeWhile isDigit
  let rest := s.dropWhile isDigit
  if ip.isEmpty then none
  else
    match rest with
    | [] => some ⟨digitsVal ip, 0⟩
    | '.' :: fp =>
      if fp.isEmpty then none
      else if fp.all isDigit then
        some ⟨digitsVal ip * 10 ^ fp.length + digitsVal fp, fp.length⟩
      else none
    | _ => none

/-- `raw.replace(" ", "").replace(",", ".")` — the normalization used in
`extract_coords`. -/
def normFull (t : Tok) : Tok :=
  (t.filter (fun c => c != ' ')).map (fun c => if c = ',' then '.' else c)

/-- `raw.replace(",", ".")` — the normalization used in
`extract_coords_by_camera_numbers` and `extract_coords_combined`. -/
def normLine (t : Tok) : Tok := t.map (fun c => if c = ',' then '.' else c)

/-- Match `[first][0-9][.,][0-9]+` at the head of the input, greedily;
returns the matched token and the rest. -/
def matchNum (first : Char → Bool) : Tok → Option (Tok × Tok)
  | d1 :: d2 :: sep :: rest =>
    if first d1 && isDigit d2 && (sep = '.' || sep = ',') then
      if (rest.takeWhile isDigit).isEmpty then none
      else some (d1 :: d2 :: sep :: rest.takeWhile isDigit,
        rest.dropWhile isDigit)
    else none
  | _ => none

/-- Match the full pattern
`([3-4][0-9][.,][0-9]+)[wsp]+([6][0-9][.,][0-9]+)` at the head of the
input. -/
def matchPair (wsp : Char → Bool) (l : Tok) : Option ((Tok × Tok) × Tok) :=
  match matchNum isLatStart l with
  | none => none
  | some (lat, r1) =>
    if (r1.takeWhile wsp).isEmpty then none
    else
      match matchNum isLonStart (r1.dropWhile wsp) with
      | none => none
      | some (lon, r2) => some ((lat, lon), r2)

/-- `pattern.findall(text)`: scan left to right, emitting non-overlapping
matches and resuming after each match.  Fuelled by the input length,
which suffices because every step consumes at least one character. -/
def findallAux (wsp : Char → Bool) : ℕ → Tok → List (Tok × Tok)
  | 0, _ => []
  | _ + 1, [] => []
  | fuel + 1, c :: cs =>
    match matchPair wsp (c :: cs) with
    | some (p, rest) => p :: findallAux wsp fuel rest
    | none => findallAux wsp fuel cs

def findall (wsp : Char → Bool) (l : Tok) : List (Tok × Tok) :=
  findallAux wsp l.length l

/-- `round(x, 6)` in micro-degrees: `⌊x·10⁶ + 1/2⌋` computed exactly on
the decimal `mant / 10 ^ fexp`. -/
def Dec.toMicro (d : Dec) : ℕ :=
  (2 * d.mant * 1000000 + 10 ^ d.fexp) / (2 * 10 ^ d.fexp)

/-- Rational value of a micro-degree coordinate. -/
def val6 (u : ℕ) : ℚ := (u : ℚ) / 1000000

/-- The bounding-box test `38 <= lat <= 43 and 60 <= lon <= 74`,
evaluated exactly on decimals. -/
def inBox (lat lon : Dec) : Bool :=
  38 * 10 ^ lat.fexp ≤ lat.mant && lat.mant ≤ 43 * 10 ^ lat.fexp &&
  60 * 10 ^ lon.fexp ≤ lon.mant && lon.mant ≤ 74 * 10 ^ lon.fexp

/-- `coords.add(p)` on a Python `set`, modelled as a duplicate-free list
in insertion order (the final ordering is produced by sorting, so only
the underlying set matters). -/
def sinsert (s : List (ℕ × ℕ)) (p : ℕ × ℕ) : List (ℕ × ℕ) :=
  if p ∈ s then s else s ++ [p]

/-- One match processed by the `try: … except ValueError: continue`
bodies: parse both tokens with `norm`, filter by the box, round and
insert; skip the pair silently if either parse fails. -/
def stepSkip (norm : Tok → Tok) (s : List (ℕ × ℕ)) (m : Tok × Tok) :
    List (ℕ × ℕ) :=
  match parseFloat (norm m.1), parseFloat (norm m.2) with
  | some lat, some lon =>
    if inBox lat lon then sinsert s (lat.toMicro, lon.toMicro) else s
  | _, _ => s

/-- One match processed by the loop body of `extract_coords`, which has
no `try`/`except`: a parse failure would propagate (modelled as
`none`). -/
def stepStrict (s : List (ℕ × ℕ)) (m : Tok × Tok) :
    Option (List (ℕ × ℕ)) :=
  match parseFloat (normFull m.1), parseFloat (normFull m.2) with
  | some lat, some lon =>
    some (if inBox lat lon then sinsert s (lat.toMicro, lon.toMicro) else s)
  | _, _ => none

/-- The coordinate a single match contributes, if any. -/
def candOf (norm : Tok → Tok) (m : Tok × Tok) : Option (ℕ × ℕ) :=
  match parseFloat (norm m.1), parseFloat (norm m.2) with
  | some lat, some lon =>
    if inBox lat lon then some (lat.toMicro, lon.toMicro) else none
  | _, _ => none

/-- `text.split('\n')`. -/
def pageLines (text : Tok) : List Tok := text.splitOn '\n'

/-- `line.strip()`. -/
def pyStrip (l : Tok) : Tok :=
  ((l.dropWhile isPyWs).reverse.dropWhile isPyWs).reverse

/-- `re.match(r'^[0-9]{4}', line.strip())` succeeds. -/
def isCameraLine (line : Tok) : Bool :=
  decide (4 ≤ (pyStrip line).length) && ((pyStrip line).take 4).all isDigit

/-- The per-line body of `extract_coords_by_camera_numbers` (also method
1 of `extract_coords_combined`). -/
def processLine (s : List (ℕ × ℕ)) (line : Tok) : List (ℕ × ℕ) :=
  if isCameraLine line then
    (findall isSepSpace line).foldl (stepSkip normLine) s
  else s

/-- Lexicographic order used by `sort_values(["lat", "lon"])`. -/
def lexLe (p q : ℕ × ℕ) : Prop := p.1 < q.1 ∨ (p.1 = q.1 ∧ p.2 ≤ q.2)

instance : DecidableRel lexLe := fun p q => by
  unfold lexLe; exact instDecidableOr

/-- `pd.DataFrame(coords, …).sort_values(["lat", "lon"])`: the set,
sorted ascending by latitude then longitude. -/
def sortPairs (s : List (ℕ × ℕ)) : List (ℕ × ℕ) := List.insertionSort lexLe s

/-- Per-page body of `extract_coords`: skip pages with no text,
otherwise process every match of the whole-text pattern. -/
def pageStepAll (s : List (ℕ × ℕ)) (text : Tok) : Option (List (ℕ × ℕ)) :=
  if text.isEmpty then some s
  else (findall isSepAll text).foldlM stepStrict s

/-- `extract_coords`: whole-text scan with `[ \t\r\n]+` separators, no
`try`/`except` around `float` (`none` models an uncaught
`ValueError`). -/
def extract_coords (pages : List Tok) : Option (List (ℕ × ℕ)) :=
  (pages.foldlM pageStepAll []).map sortPairs

/-- Per-page body of `extract_coords_by_camera_numbers`. -/
def pageStepCam (s : List (ℕ × ℕ)) (text : Tok) : List (ℕ × ℕ) :=
  if text.isEmpty then s else (pageLines text).foldl processLine s

/-- `extract_coords_by_camera_numbers`: line-anchored scan over lines
starting with four digits, `[ ]+` separators, parse failures skipped. -/
def extract_coords_by_camera_numbers (pages : List Tok) : List (ℕ × ℕ) :=
  sortPairs (pages.foldl pageStepCam [])

/-- Per-page body of `extract_coords_combined`: method 1 (camera lines)
then method 2 (whole text), into the same set. -/
def pageStepCombined (s : List (ℕ × ℕ)) (text : Tok) : List (ℕ × ℕ) :=
  if text.isEmpty then s
  else
    (findall isSepAll text).foldl (stepSkip normLine)
      ((pageLines text).foldl processLine s)

/-- `extract_coords_combined`: both heuristics over the same text, one
deduplicating set. -/
def extract_coords_combined (pages : List Tok) : List (ℕ × ℕ) :=
  sortPairs (pages.foldl pageStepCombined [])

/-- Per-page body of `extract_coords` with the (provably unreachable)
parse failure replaced by a skip. -/
def pageStepAllSkip (s : List (ℕ × ℕ)) (text : Tok) : List (ℕ × ℕ) :=
  if text.isEmpty then s
  else (findall isSepAll text).foldl (stepSkip normLine) s

/-- Helper: `extract_coords` with the (provably unreachable) parse
failure replaced by a skip; `extract_coords` always returns `some` of
this. -/
def extract_coords_total (pages : List Tok) : List (ℕ × ℕ) :=
  sortPairs (pages.foldl pageStepAllSkip [])

/-- The exact shape of a token captured by `[first][0-9][.,][0-9]+`:
a leading digit from `first`, one more digit, a decimal separator, and
at least one fractional digit. -/
def isNumTok (first : Char → Bool) : Tok → Bool
  | d1 :: d2 :: sep :: fr =>
    first d1 && isDigit d2 && (sep = '.' || sep = ',') &&
    !fr.isEmpty && fr.all isDigit
  | _ => false

/-- Coordinates contributed by one line of the line-anchored scan. -/
def lineCands (line : Tok) : List (ℕ × ℕ) :=
  if isCameraLine line then
    (findall isSepSpace line).filterMap (candOf normLine)
  else []

/-- Coordinates contributed by one page of the line-anchored scan. -/
def camCands (text : Tok) : List (ℕ × ℕ) :=
  if text.isEmpty then [] else ((pageLines text).map lineCands).flatten

/-- Coordinates contributed by one page of the whole-text scan. -/
def allCands (text : Tok) : List (ℕ × ℕ) :=
  if text.isEmpty then []
  else (findall isSepAll text).filterMap (candOf normLine)

/-- Coordinates contributed by one page of the combined strategy. -/
def combCands (text : Tok) : List (ℕ × ℕ) :=
  if text.isEmpty then []
  else ((pageLines text).map lineCands).flatten ++
    (findall isSepAll text).filterMap (candOf normLine)

/-- The configured bounding box, on micro-degree pairs. -/
def microBox (p : ℕ × ℕ) : Prop :=
  38 * 1000000 ≤ p.1 ∧ p.1 ≤ 43 * 1000000 ∧
  60 * 1000000 ≤ p.2 ∧ p.2 ≤ 74 * 1000000

/-- Ascending (latitude, longitude) order on the rational values of
micro-degree pairs. -/
def valLe (p q : ℕ × ℕ) : Prop :=
  val6 p.1 < val6 q.1 ∨ (val6 p.1 = val6 q.1 ∧ val6 p.2 ≤ val6 q.2)

/-! ## Set and fold lemmas -/

theorem mem_sinsert {s : List (ℕ × ℕ)} {p q : ℕ × ℕ} :
    p ∈ sinsert s q ↔ p ∈ s ∨ p = q := by
  unfold sinsert
  split
  · constructor
    · exact Or.inl
    · rintro (h | rfl)
      · exact h
      · assumption
  · simp [List.mem_append]

theorem sinsert_self {s : List (ℕ × ℕ)} {p : ℕ × ℕ} (h : p ∈ s) :
    sinsert s p = s := if_pos h

theorem sinsert_nodup {s : List (ℕ × ℕ)} {q : ℕ × ℕ} (h : s.Nodup) :
    (sinsert s q).Nodup := by
  unfold sinsert
  split
  · exact h
  · rename_i hq
    simp [List.nodup_append, h, hq]

theorem stepSkip_eq_candOf (norm : Tok → Tok) (s : List (ℕ × ℕ))
    (m : Tok × Tok) :
    stepSkip norm s m =
      match candOf norm m with
      | some p => sinsert s p
      | none => s := by
  unfold stepSkip candOf
  cases parseFloat (norm m.1) <;> cases parseFloat (norm m.2) <;> simp
  split <;> simp

theorem mem_stepSkip (norm : Tok → Tok) (s : List (ℕ × ℕ)) (m : Tok × Tok)
    (p : ℕ × ℕ) :
    p ∈ stepSkip norm s m ↔ p ∈ s ∨ p ∈ (candOf norm m).toList := by
  rw [stepSkip_eq_candOf]
  cases h : candOf norm m <;> simp [mem_sinsert]

theorem stepSkip_nodup (norm : Tok → Tok) (s : List (ℕ × ℕ)) (m : Tok × Tok)
    (h : s.Nodup) : (stepSkip norm s m).Nodup := by
  rw [stepSkip_eq_candOf]
  cases candOf norm m
  · exact h
  · exact sinsert_nodup h

theorem mem_foldl_iff {α : Type} (F : List (ℕ × ℕ) → α → List (ℕ × ℕ))
    (g : α → List (ℕ × ℕ))
    (hF : ∀ s x p, p ∈ F s x ↔ p ∈ s ∨ p ∈ g x) :
    ∀ (xs : List α) (s : List (ℕ × ℕ)) (p : ℕ × ℕ),
      p ∈ xs.foldl F s ↔ p ∈ s ∨ ∃ x ∈ xs, p ∈ g x := by
  intro xs
  induction xs with
  | nil => intro s p; simp
  | cons x xs ih =>
    intro s p
    rw [List.foldl_cons, ih, hF]
    constructor
    · rintro ((h | h) | ⟨y, hy, hgy⟩)
      · exact Or.inl h
      · exact Or.inr ⟨x, List.mem_cons_self x xs, h⟩
      · exact Or.inr ⟨y, List.mem_cons_of_mem x hy, hgy⟩
    · rintro (h | ⟨y, hy, hgy⟩)
      · exact Or.inl (Or.inl h)
      · rcases List.mem_cons.mp hy with rfl | hy'
        · exact Or.inl (Or.inr hgy)
        · exact Or.inr ⟨y, hy', hgy⟩

theorem foldl_nodup {α : Type} (F : List (ℕ × ℕ) → α → List (ℕ × ℕ))
    (hF : ∀ s x, s.Nodup → (F s x).Nodup) :
    ∀ (xs : List α) (s : List (ℕ × ℕ)), s.Nodup → (xs.foldl F s).Nodup := by
  intro xs
  induction xs with
  | nil => intro s h; simpa
  | cons x xs ih => intro s h; exact ih _ (hF _ _ h)

/-! ## Numeric bounds -/

theorem le_toMicro {d : Dec} {a : ℕ} (h : a * 10 ^ d.fexp ≤ d.mant) :
    a * 1000000 ≤ d.toMicro := by
  unfold Dec.toMicro
  have hP : 0 < 10 ^ d.fexp := pow_pos (by norm_num) _
  rw [Nat.le_div_iff_mul_le (by omega)]
  calc a * 1000000 * (2 * 10 ^ d.fexp) = a * 10 ^ d.fexp * 2000000 := by ring
    _ ≤ d.mant * 2000000 := Nat.mul_le_mul_right _ h
    _ ≤ 2 * d.mant * 1000000 + 10 ^ d.fexp := by omega

theorem toMicro_le {d : Dec} {b : ℕ} (h : d.mant ≤ b * 10 ^ d.fexp) :
    d.toMicro ≤ b * 1000000 := by
  unfold Dec.toMicro
  have hP : 0 < 10 ^ d.fexp := pow_pos (by norm_num) _
  have h1 : 2 * d.mant * 1000000 ≤ 2 * (b * 10 ^ d.fexp) * 1000000 := by
    calc 2 * d.mant * 1000000 = d.mant * 2000000 := by ring
      _ ≤ b * 10 ^ d.fexp * 2000000 := Nat.mul_le_mul_right _ h
      _ = 2 * (b * 10 ^ d.fexp) * 1000000 := by ring
  have key : 2 * d.mant * 1000000 + 10 ^ d.fexp <
      (b * 1000000 + 1) * (2 * 10 ^ d.fexp) := by
    have h2 : (b * 1000000 + 1) * (2 * 10 ^ d.fexp) =
        2 * (b * 10 ^ d.fexp) * 1000000 + 2 * 10 ^ d.fexp := by ring
    omega
  have h3 := (Nat.div_lt_iff_lt_mul
    (by omega : 0 < 2 * 10 ^ d.fexp)).mpr key
  omega

theorem digitsVal_lt {l : Tok} (h : l.all isDigit = true) :
    digitsVal l < 10 ^ l.length := by
  induction l with
  | nil => simp [digitsVal]
  | cons c cs ih =>
    simp only [List.all_cons, Bool.and_eq_true] at h
    have hc : c.toNat - 48 ≤ 9 := by
      have h0 := h.1
      simp only [isDigit, Bool.and_eq_true, decide_eq_true_eq] at h0
      omega
    have hv := ih h.2
    calc digitsVal (c :: cs) = (c.toNat - 48) * 10 ^ cs.length + digitsVal cs :=
          rfl
      _ < (c.toNat - 48) * 10 ^ cs.length + 10 ^ cs.length := by omega
      _ ≤ 9 * 10 ^ cs.length + 10 ^ cs.length :=
          Nat.add_le_add_right (Nat.mul_le_mul_right _ hc) _
      _ = 10 ^ (cs.length + 1) := by ring
      _ = 10 ^ (c :: cs).length := by simp

/-! ## Bridges between micro-degrees and rational values -/

theorem le_val6 {a u : ℕ} : (a : ℚ) ≤ val6 u ↔ a * 1000000 ≤ u := by
  unfold val6
  rw [le_div_iff₀ (by norm_num : (0:ℚ) < 1000000)]
  constructor <;> intro h <;> exact_mod_cast h

theorem val6_le {u b : ℕ} : val6 u ≤ b ↔ u ≤ b * 1000000 := by
  unfold val6
  rw [div_le_iff₀ (by norm_num : (0:ℚ) < 1000000)]
  constructor <;> intro h <;> exact_mod_cast h

theorem val6_lt {u b : ℕ} : val6 u < b ↔ u < b * 1000000 := by
  unfold val6
  rw [div_lt_iff₀ (by norm_num : (0:ℚ) < 1000000)]
  constructor <;> intro h <;> exact_mod_cast h

theorem val6_lt_val6 {u v : ℕ} : val6 u < val6 v ↔ u < v := by
  unfold val6
  rw [div_lt_div_iff_of_pos_right (by norm_num : (0:ℚ) < 1000000)]
  constructor <;> intro h <;> exact_mod_cast h

theorem val6_le_val6 {u v : ℕ} : val6 u ≤ val6 v ↔ u ≤ v := by
  unfold val6
  rw [div_le_div_iff_of_pos_right (by norm_num : (0:ℚ) < 1000000)]
  constructor <;> intro h <;> exact_mod_cast h

theorem val6_inj {u v : ℕ} : val6 u = val6 v ↔ u = v := by
  constructor
  · intro h
    exact le_antisymm (val6_le_val6.mp h.le) (val6_le_val6.mp h.ge)
  · rintro rfl; rfl

theorem lexLe_valLe {p q : ℕ × ℕ} (h : lexLe p q) : valLe p q := by
  unfold lexLe at h
  unfold valLe
  rcases h with h | ⟨h1, h2⟩
  · exact Or.inl (val6_lt_val6.mpr h)
  · exact Or.inr ⟨val6_inj.mpr h1, val6_le_val6.mpr h2⟩

/-! ## Sorting -/

instance : IsTotal (ℕ × ℕ) lexLe :=
  ⟨fun a b => by unfold lexLe; omega⟩

instance : IsTrans (ℕ × ℕ) lexLe :=
  ⟨fun a b c hab hbc => by unfold lexLe at hab hbc ⊢; omega⟩

theorem sorted_sortPairs (s : List (ℕ × ℕ)) :
    List.Sorted lexLe (sortPairs s) :=
  List.sorted_insertionSort lexLe s

theorem mem_sortPairs {s : List (ℕ × ℕ)} {p : ℕ × ℕ} :
    p ∈ sortPairs s ↔ p ∈ s := by
  unfold sortPairs
  rw [List.mem_insertionSort]

theorem nodup_sortPairs {s : List (ℕ × ℕ)} (h : s.Nodup) :
    (sortPairs s).Nodup :=
  ((List.perm_insertionSort lexLe s).nodup_iff).mpr h

/-! ## Token shape lemmas -/

theorem matchNum_shape {first : Char → Bool} {l t r : Tok}
    (h : matchNum first l = some (t, r)) : isNumTok first t = true := by
  match l with
  | [] => simp [matchNum] at h
  | [_] => simp [matchNum] at h
  | [_, _] => simp [matchNum] at h
  | d1 :: d2 :: sep :: rest =>
    rw [matchNum] at h
    split at h
    · rename_i hcond
      split at h
      · exact absurd h (by simp)
      · rename_i hfr
        simp only [Option.some.injEq, Prod.mk.injEq] at h
        obtain ⟨h1, _⟩ := h
        subst h1
        have hfr' : (rest.takeWhile isDigit).isEmpty = false := by
          cases hx : (rest.takeWhile isDigit).isEmpty
          · rfl
          · exact absurd hx hfr
        simp only [Bool.and_eq_true] at hcond
        obtain ⟨⟨hf, hd⟩, hs⟩ := hcond
        simp [isNumTok, hf, hd, hs, hfr', List.all_takeWhile]
    · exact absurd h (by simp)

theorem matchPair_shape {wsp : Char → Bool} {l a b r : Tok}
    (h : matchPair wsp l = some ((a, b), r)) :
    isNumTok isLatStart a = true ∧ isNumTok isLonStart b = true := by
  unfold matchPair at h
  cases h1 : matchNum isLatStart l with
  | none => rw [h1] at h; simp at h
  | some latr =>
    obtain ⟨lat, r1⟩ := latr
    rw [h1] at h
    simp only at h
    split at h
    · simp at h
    · cases h2 : matchNum isLonStart (r1.dropWhile wsp) with
      | none => rw [h2] at h; simp at h
      | some lonr =>
        obtain ⟨lon, r2⟩ := lonr
        rw [h2] at h
        simp only [Option.some.injEq, Prod.mk.injEq] at h
        obtain ⟨⟨ha, hb⟩, _⟩ := h
        subst ha; subst hb
        exact ⟨matchNum_shape h1, matchNum_shape h2⟩

theorem findallAux_shape {wsp : Char → Bool} :
    ∀ (fuel : ℕ) (l : Tok) {a b : Tok}, (a, b) ∈ findallAux wsp fuel l →
      isNumTok isLatStart a = true ∧ isNumTok isLonStart b = true := by
  intro fuel
  induction fuel with
  | zero => intro l a b h; simp [findallAux] at h
  | succ n ih =>
    intro l a b h
    cases l with
    | nil => simp [findallAux] at h
    | cons c cs =>
      rw [findallAux] at h
      cases hm : matchPair wsp (c :: cs) with
      | none => rw [hm] at h; exact ih cs h
      | some pr =>
        obtain ⟨p, rest⟩ := pr
        rw [hm] at h
        rcases List.mem_cons.mp h with hp | h'
        · obtain ⟨a', b'⟩ := p
          obtain ⟨ha, hb⟩ := Prod.mk.injEq .. ▸ hp
          subst ha; subst hb
          exact matchPair_shape hm
        · exact ih rest h'

theorem findall_shape {wsp : Char → Bool} {text a b : Tok}
    (h : (a, b) ∈ findall wsp text) :
    isNumTok isLatStart a = true ∧ isNumTok isLonStart b = true :=
  findallAux_shape _ _ h

/-! ## Character facts -/

theorem isDigit_spec {c : Char} (h : isDigit c = true) :
    48 ≤ c.toNat ∧ c.toNat ≤ 57 := by
  simp only [isDigit, Bool.and_eq_true, decide_eq_true_eq] at h
  exact h

theorem digit_map_comma {c : Char} (h : isDigit c = true) :
    (if c = ',' then '.' else c) = c := by
  obtain ⟨h1, _⟩ := isDigit_spec h
  rw [if_neg]
  intro hc
  subst hc
  exact absurd h1 (by decide)

theorem digit_ne_space {c : Char} (h : isDigit c = true) : (c != ' ') = true := by
  obtain ⟨h1, _⟩ := isDigit_spec h
  simp only [bne_iff_ne, ne_eq]
  intro hc
  subst hc
  exact absurd h1 (by decide)

theorem map_comma_digits {l : Tok} (h : l.all isDigit = true) :
    l.map (fun c => if c = ',' then '.' else c) = l := by
  induction l with
  | nil => rfl
  | cons c cs ih =>
    simp only [List.all_cons, Bool.and_eq_true] at h
    simp [digit_map_comma h.1, ih h.2]

theorem latStart_digit : ∀ c, isLatStart c = true → isDigit c = true := by
  intro c hc
  simp only [isLatStart, Bool.or_eq_true, decide_eq_true_eq] at hc
  rcases hc with rfl | rfl <;> decide

theorem lonStart_digit : ∀ c, isLonStart c = true → isDigit c = true := by
  intro c hc
  simp only [isLonStart, decide_eq_true_eq] at hc
  subst hc
  decide

/-! ## Parsing shaped tokens -/

theorem parse_shaped {first : Char → Bool}
    (hf : ∀ c, first c = true → isDigit c = true) {t : Tok}
    (h : isNumTok first t = true) :
    ∃ d1 d2 sep fr, t = d1 :: d2 :: sep :: fr ∧ first d1 = true ∧
      isDigit d2 = true ∧ fr.all isDigit = true ∧ fr.length ≠ 0 ∧
      normFull t = normLine t ∧
      parseFloat (normLine t) =
        some ⟨digitsVal [d1, d2] * 10 ^ fr.length + digitsVal fr,
          fr.length⟩ := by
  match t with
  | [] => simp [isNumTok] at h
  | [_] => simp [isNumTok] at h
  | [_, _] => simp [isNumTok] at h
  | d1 :: d2 :: sep :: fr =>
    simp only [isNumTok, Bool.and_eq_true, Bool.or_eq_true,
      Bool.not_eq_true', decide_eq_true_eq] at h
    obtain ⟨⟨⟨⟨hd1, hd2⟩, hsep⟩, hfe⟩, hall⟩ := h
    have hfr0 : fr.length ≠ 0 := by
      cases fr
      · simp at hfe
      · simp
    have hallmem : ∀ x ∈ fr, isDigit x = true := by
      intro x hx
      exact (List.all_eq_true.mp hall) x hx
    have hsep' : (if sep = ',' then '.' else sep) = '.' := by
      rcases hsep with rfl | rfl <;> decide
    have hnl : normLine (d1 :: d2 :: sep :: fr) = d1 :: d2 :: '.' :: fr := by
      unfold normLine
      simp only [List.map_cons]
      rw [digit_map_comma (hf _ hd1), digit_map_comma hd2, hsep',
        map_comma_digits hall]
    refine ⟨d1, d2, sep, fr, rfl, hd1, hd2, hall, hfr0, ?_, ?_⟩
    · unfold normFull normLine
      congr 1
      apply List.filter_eq_self.mpr
      intro a ha
      rcases List.mem_cons.mp ha with rfl | ha
      · exact digit_ne_space (hf _ hd1)
      rcases List.mem_cons.mp ha with rfl | ha
      · exact digit_ne_space hd2
      rcases List.mem_cons.mp ha with rfl | ha
      · rcases hsep with rfl | rfl <;> decide
      · exact digit_ne_space (hallmem a ha)
    · rw [hnl]
      have ht : (d1 :: d2 :: '.' :: fr).takeWhile isDigit = [d1, d2] := by
        rw [List.takeWhile_cons, if_pos (hf _ hd1), List.takeWhile_cons,
          if_pos hd2, List.takeWhile_cons, if_neg (by decide)]
      have hd : (d1 :: d2 :: '.' :: fr).dropWhile isDigit = '.' :: fr := by
        rw [List.dropWhile_cons, if_pos (hf _ hd1), List.dropWhile_cons,
          if_pos hd2, List.dropWhile_cons, if_neg (by decide)]
      simp only [parseFloat, ht, hd]
      have hfe' : fr.isEmpty = false := hfe
      simp [hfe', hall]

theorem shaped_norm_eq {first : Char → Bool}
    (hf : ∀ c, first c = true → isDigit c = true) {t : Tok}
    (h : isNumTok first t = true) : normFull t = normLine t := by
  obtain ⟨_, _, _, _, _, _, _, _, _, he, _⟩ := parse_shaped hf h
  exact he

theorem shaped_parse {first : Char → Bool}
    (hf : ∀ c, first c = true → isDigit c = true) {t : Tok}
    (h : isNumTok first t = true) :
    ∃ d, parseFloat (normLine t) = some d := by
  obtain ⟨_, _, _, _, _, _, _, _, _, _, hp⟩ := parse_shaped hf h
  exact ⟨_, hp⟩

theorem lon_parse_lt {t : Tok} {d : Dec} (ht : isNumTok isLonStart t = true)
    (hp : parseFloat (normLine t) = some d) :
    d.mant < 70 * 10 ^ d.fexp := by
  obtain ⟨d1, d2, sep, fr, hteq, h1, h2, hall, hlen, _, hparse⟩ :=
    parse_shaped lonStart_digit ht
  rw [hp] at hparse
  have hd : d = ⟨digitsVal [d1, d2] * 10 ^ fr.length + digitsVal fr,
      fr.length⟩ := Option.some_inj.mp hparse
  subst hd
  have h6 : d1 = '6' := by
    simp only [isLonStart, decide_eq_true_eq] at h1
    exact h1
  subst h6
  have hd2' := isDigit_spec h2
  have hfr := digitsVal_lt hall
  have hpair : digitsVal ['6', d2] ≤ 69 := by
    have h54 : Char.toNat '6' = 54 := rfl
    simp only [digitsVal, List.length_cons, List.length_nil, h54, pow_zero,
      pow_one, Nat.mul_one, Nat.add_zero]
    omega
  calc digitsVal ['6', d2] * 10 ^ fr.length + digitsVal fr
      ≤ 69 * 10 ^ fr.length + digitsVal fr :=
        Nat.add_le_add_right (Nat.mul_le_mul_right _ hpair) _
    _ < 69 * 10 ^ fr.length + 10 ^ fr.length := by omega
    _ = 70 * 10 ^ fr.length := by ring

/-! ## The bounding box on produced candidates -/

theorem candOf_box {norm : Tok → Tok} {m : Tok × Tok} {p : ℕ × ℕ}
    (h : candOf norm m = some p) : microBox p := by
  unfold candOf at h
  cases h1 : parseFloat (norm m.1) with
  | none => rw [h1] at h; simp at h
  | some lat =>
    cases h2 : parseFloat (norm m.2) with
    | none => rw [h1, h2] at h; simp at h
    | some lon =>
      rw [h1, h2] at h
      simp only at h
      split at h
      · rename_i hbox
        simp only [Option.some.injEq] at h
        subst h
        simp only [inBox, Bool.and_eq_true, decide_eq_true_eq] at hbox
        obtain ⟨⟨⟨b1, b2⟩, b3⟩, b4⟩ := hbox
        exact ⟨le_toMicro b1, toMicro_le b2, le_toMicro b3, toMicro_le b4⟩
      · simp at h

/-! ## Membership characterization of each extraction variant -/

theorem mem_foldl_stepSkip (norm : Tok → Tok) (ms : List (Tok × Tok))
    (s : List (ℕ × ℕ)) (p : ℕ × ℕ) :
    p ∈ ms.foldl (stepSkip norm) s ↔
      p ∈ s ∨ p ∈ ms.filterMap (candOf norm) := by
  rw [mem_foldl_iff (stepSkip norm) (fun m => (candOf norm m).toList)
    (mem_stepSkip norm) ms s p]
  simp [List.mem_filterMap]

theorem mem_flatten_lineCands {lines : List Tok} {p : ℕ × ℕ} :
    p ∈ (lines.map lineCands).flatten ↔ ∃ l ∈ lines, p ∈ lineCands l := by
  simp [List.mem_flatten, List.mem_map]

theorem mem_processLine (s : List (ℕ × ℕ)) (line : Tok) (p : ℕ × ℕ) :
    p ∈ processLine s line ↔ p ∈ s ∨ p ∈ lineCands line := by
  unfold processLine lineCands
  split
  · exact mem_foldl_stepSkip normLine _ s p
  · simp

theorem mem_pageStepCam (s : List (ℕ × ℕ)) (text : Tok) (p : ℕ × ℕ) :
    p ∈ pageStepCam s text ↔ p ∈ s ∨ p ∈ camCands text := by
  unfold pageStepCam camCands
  split
  · simp
  · rw [mem_foldl_iff processLine lineCands
      (fun s l p => mem_processLine s l p) (pageLines text) s p]
    rw [mem_flatten_lineCands]

theorem mem_pageStepAllSkip (s : List (ℕ × ℕ)) (text : Tok) (p : ℕ × ℕ) :
    p ∈ pageStepAllSkip s text ↔ p ∈ s ∨ p ∈ allCands text := by
  unfold pageStepAllSkip allCands
  split
  · simp
  · exact mem_foldl_stepSkip normLine _ s p

theorem mem_pageStepCombined (s : List (ℕ × ℕ)) (text : Tok) (p : ℕ × ℕ) :
    p ∈ pageStepCombined s text ↔ p ∈ s ∨ p ∈ combCands text := by
  unfold pageStepCombined combCands
  split
  · simp
  · rw [mem_foldl_stepSkip normLine _ _ p,
      mem_foldl_iff processLine lineCands
        (fun s l p => mem_processLine s l p) (pageLines text) s p,
      List.mem_append, mem_flatten_lineCands]
    exact or_assoc

theorem mem_by_camera {pages : List Tok} {p : ℕ × ℕ} :
    p ∈ extract_coords_by_camera_numbers pages ↔
      ∃ t ∈ pages, p ∈ camCands t := by
  unfold extract_coords_by_camera_numbers
  rw [mem_sortPairs, mem_foldl_iff pageStepCam camCands
    (fun s t p => mem_pageStepCam s t p) pages [] p]
  simp

theorem mem_combined {pages : List Tok} {p : ℕ × ℕ} :
    p ∈ extract_coords_combined pages ↔ ∃ t ∈ pages, p ∈ combCands t := by
  unfold extract_coords_combined
  rw [mem_sortPairs, mem_foldl_iff pageStepCombined combCands
    (fun s t p => mem_pageStepCombined s t p) pages [] p]
  simp

theorem mem_total {pages : List Tok} {p : ℕ × ℕ} :
    p ∈ extract_coords_total pages ↔ ∃ t ∈ pages, p ∈ allCands t := by
  unfold extract_coords_total
  rw [mem_sortPairs, mem_foldl_iff pageStepAllSkip allCands
    (fun s t p => mem_pageStepAllSkip s t p) pages [] p]
  simp

theorem mem_combCands {text : Tok} {p : ℕ × ℕ} :
    p ∈ combCands text ↔ p ∈ camCands text ∨ p ∈ allCands text := by
  unfold combCands camCands allCands
  split
  · simp
  · rw [List.mem_append]

/-! ## `extract_coords` never fails and equals its total variant -/

theorem stepStrict_eq {m : Tok × Tok} (h1 : isNumTok isLatStart m.1 = true)
    (h2 : isNumTok isLonStart m.2 = true) (s : List (ℕ × ℕ)) :
    stepStrict s m = some (stepSkip normLine s m) := by
  unfold stepStrict stepSkip
  rw [shaped_norm_eq latStart_digit h1, shaped_norm_eq lonStart_digit h2]
  obtain ⟨dlat, hlat⟩ := shaped_parse latStart_digit h1
  obtain ⟨dlon, hlon⟩ := shaped_parse lonStart_digit h2
  rw [hlat, hlon]

theorem foldlM_stepStrict {ms : List (Tok × Tok)}
    (hms : ∀ m ∈ ms, isNumTok isLatStart m.1 = true ∧
      isNumTok isLonStart m.2 = true) :
    ∀ s, ms.foldlM stepStrict s = some (ms.foldl (stepSkip normLine) s) := by
  induction ms with
  | nil => intro s; rfl
  | cons m ms ih =>
    intro s
    have hm := hms m (List.mem_cons_self m ms)
    rw [List.foldl_cons, List.foldlM_cons, stepStrict_eq hm.1 hm.2]
    exact ih (fun m' hm' => hms m' (List.mem_cons_of_mem _ hm')) _

theorem pageStepAll_eq (s : List (ℕ × ℕ)) (text : Tok) :
    pageStepAll s text = some (pageStepAllSkip s text) := by
  unfold pageStepAll pageStepAllSkip
  split
  · rfl
  · exact foldlM_stepStrict
      (fun m hm => by
        obtain ⟨a, b⟩ := m
        exact findall_shape hm) s

theorem extract_coords_eq (pages : List Tok) :
    extract_coords pages = some (extract_coords_total pages) := by
  unfold extract_coords extract_coords_total
  have key : ∀ s, pages.foldlM pageStepAll s =
      some (pages.foldl pageStepAllSkip s) := by
    induction pages with
    | nil => intro s; rfl
    | cons t ts ih =>
      intro s
      rw [List.foldlM_cons, pageStepAll_eq, List.foldl_cons]
      exact ih _
  rw [key]
  rfl

/-! ## Freedom from duplicates -/

theorem by_camera_nodup (pages : List Tok) :
    (extract_coords_by_camera_numbers pages).Nodup := by
  unfold extract_coords_by_camera_numbers
  apply nodup_sortPairs
  refine foldl_nodup pageStepCam ?_ pages [] List.nodup_nil
  intro s t h
  unfold pageStepCam
  split
  · exact h
  · refine foldl_nodup processLine ?_ _ _ h
    intro s' l h'
    unfold processLine
    split
    · exact foldl_nodup _ (stepSkip_nodup normLine) _ _ h'
    · exact h'

theorem combined_nodup (pages : List Tok) :
    (extract_coords_combined pages).Nodup := by
  unfold extract_coords_combined
  apply nodup_sortPairs
  refine foldl_nodup pageStepCombined ?_ pages [] List.nodup_nil
  intro s t h
  unfold pageStepCombined
  split
  · exact h
  · refine foldl_nodup _ (stepSkip_nodup normLine) _ _ ?_
    refine foldl_nodup processLine ?_ _ _ h
    intro s' l h'
    unfold processLine
    split
    · exact foldl_nodup _ (stepSkip_nodup normLine) _ _ h'
    · exact h'

theorem total_nodup (pages : List Tok) :
    (extract_coords_total pages).Nodup := by
  unfold extract_coords_total
  apply nodup_sortPairs
  refine foldl_nodup pageStepAllSkip ?_ pages [] List.nodup_nil
  intro s t h
  unfold pageStepAllSkip
  split
  · exact h
  · exact foldl_nodup _ (stepSkip_nodup normLine) _ _ h

/-! ## Bounds on the candidates of each variant -/

theorem camCands_box {text : Tok} {p : ℕ × ℕ} (h : p ∈ camCands text) :
    microBox p := by
  unfold camCands at h
  split at h
  · simp at h
  · rw [mem_flatten_lineCands] at h
    obtain ⟨l, _, hl⟩ := h
    unfold lineCands at hl
    split at hl
    · obtain ⟨m, _, hm⟩ := List.mem_filterMap.mp hl
      exact candOf_box hm
    · simp at hl

theorem allCands_box {text : Tok} {p : ℕ × ℕ} (h : p ∈ allCands text) :
    microBox p := by
  unfold allCands at h
  split at h
  · simp at h
  · obtain ⟨m, _, hm⟩ := List.mem_filterMap.mp h
    exact candOf_box hm

theorem combCands_box {text : Tok} {p : ℕ × ℕ} (h : p ∈ combCands text) :
    microBox p := by
  rcases mem_combCands.mp h with h | h
  · exact camCands_box h
  · exact allCands_box h

theorem by_camera_box {pages : List Tok} {p : ℕ × ℕ}
    (h : p ∈ extract_coords_by_camera_numbers pages) : microBox p := by
  obtain ⟨t, _, ht⟩ := mem_by_camera.mp h
  exact camCands_box ht

theorem combined_box {pages : List Tok} {p : ℕ × ℕ}
    (h : p ∈ extract_coords_combined pages) : microBox p := by
  obtain ⟨t, _, ht⟩ := mem_combined.mp h
  exact combCands_box ht

theorem total_box {pages : List Tok} {p : ℕ × ℕ}
    (h : p ∈ extract_coords_total pages) : microBox p := by
  obtain ⟨t, _, ht⟩ := mem_total.mp h
  exact allCands_box ht

theorem cand_lon_le {m : Tok × Tok} {p : ℕ × ℕ}
    (hb : isNumTok isLonStart m.2 = true)
    (h : candOf normLine m = some p) : p.2 ≤ 70 * 1000000 := by
  unfold candOf at h
  cases h1 : parseFloat (normLine m.1) with
  | none => rw [h1] at h; simp at h
  | some lat =>
    cases h2 : parseFloat (normLine m.2) with
    | none => rw [h1, h2] at h; simp at h
    | some lon =>
      rw [h1, h2] at h
      simp only at h
      split at h
      · simp only [Option.some.injEq] at h
        subst h
        exact toMicro_le (le_of_lt (lon_parse_lt hb h2))
      · simp at h

theorem camCands_lon {text : Tok} {p : ℕ × ℕ} (h : p ∈ camCands text) :
    p.2 ≤ 70 * 1000000 := by
  unfold camCands at h
  split at h
  · simp at h
  · rw [mem_flatten_lineCands] at h
    obtain ⟨l, _, hl⟩ := h
    unfold lineCands at hl
    split at hl
    · obtain ⟨m, hm', hm⟩ := List.mem_filterMap.mp hl
      obtain ⟨a, b⟩ := m
      exact cand_lon_le (findall_shape hm').2 hm
    · simp at hl

theorem allCands_lon {text : Tok} {p : ℕ × ℕ} (h : p ∈ allCands text) :
    p.2 ≤ 70 * 1000000 := by
  unfold allCands at h
  split at h
  · simp at h
  · obtain ⟨m, hm', hm⟩ := List.mem_filterMap.mp h
    obtain ⟨a, b⟩ := m
    exact cand_lon_le (findall_shape hm').2 hm

theorem by_camera_lon {pages : List Tok} {p : ℕ × ℕ}
    (h : p ∈ extract_coords_by_camera_numbers pages) :
    p.2 ≤ 70 * 1000000 := by
  obtain ⟨t, _, ht⟩ := mem_by_camera.mp h
  exact camCands_lon ht

theorem combined_lon {pages : List Tok} {p : ℕ × ℕ}
    (h : p ∈ extract_coords_combined pages) : p.2 ≤ 70 * 1000000 := by
  obtain ⟨t, _, ht⟩ := mem_combined.mp h
  rcases mem_combCands.mp ht with h' | h'
  · exact camCands_lon h'
  · exact allCands_lon h'

theorem total_lon {pages : List Tok} {p : ℕ × ℕ}
    (h : p ∈ extract_coords_total pages) : p.2 ≤ 70 * 1000000 := by
  obtain ⟨t, _, ht⟩ := mem_total.mp h
  exact allCands_lon ht

/-! ## Reading the box in rational form -/

theorem microBox_val6 {p : ℕ × ℕ} (h : microBox p) :
    (38 : ℚ) ≤ val6 p.1 ∧ val6 p.1 ≤ 43 ∧
    (60 : ℚ) ≤ val6 p.2 ∧ val6 p.2 ≤ 74 := by
  obtain ⟨h1, h2, h3, h4⟩ := h
  refine ⟨?_, ?_, ?_, ?_⟩
  · exact_mod_cast le_val6.mpr h1
  · exact_mod_cast val6_le.mpr h2
  · exact_mod_cast le_val6.mpr h3
  · exact_mod_cast val6_le.mpr h4

theorem microBox_not30 {p : ℕ × ℕ} (h : microBox p) :
    ¬(val6 p.1 = 30 ∧ val6 p.2 = 69) := by
  obtain ⟨hb, _, _, _⟩ := microBox_val6 h
  rintro ⟨h1, _⟩
  rw [h1] at hb
  norm_num at hb

theorem count_one_of_nodup {l : List (ℕ × ℕ)} {p : ℕ × ℕ} (hn : l.Nodup)
    (h : p ∈ l) : l.count p = 1 := by
  induction l with
  | nil => simp at h
  | cons a l ih =>
    rcases List.mem_cons.mp h with rfl | h'
    · rw [List.count_cons_self, List.count_eq_zero_of_not_mem
        (List.nodup_cons.mp hn).1]
    · have hne : p ≠ a := by
        rintro rfl
        exact (List.nodup_cons.mp hn).1 h'
      rw [List.count_cons_of_ne hne]
      exact ih (List.nodup_cons.mp hn).2 h'

/-! ## Claim theorems -/

/-- C1: every coordinate pair in the output of every extraction variant
has latitude in `[38, 43]` and longitude in `[60, 74]`, and a pair such
as `(30.0, 69.0)` with a value outside the box never appears in the
output, however often it occurs in the source text. -/
theorem box_invariant :
    (∀ pages df, extract_coords pages = some df → ∀ p ∈ df,
        (38 : ℚ) ≤ val6 p.1 ∧ val6 p.1 ≤ 43 ∧
        (60 : ℚ) ≤ val6 p.2 ∧ val6 p.2 ≤ 74) ∧
    (∀ pages, ∀ p ∈ extract_coords_by_camera_numbers pages,
        (38 : ℚ) ≤ val6 p.1 ∧ val6 p.1 ≤ 43 ∧
        (60 : ℚ) ≤ val6 p.2 ∧ val6 p.2 ≤ 74) ∧
    (∀ pages, ∀ p ∈ extract_coords_combined pages,
        (38 : ℚ) ≤ val6 p.1 ∧ val6 p.1 ≤ 43 ∧
        (60 : ℚ) ≤ val6 p.2 ∧ val6 p.2 ≤ 74) ∧
    (∀ pages df, extract_coords pages = some df → ∀ p ∈ df,
        ¬(val6 p.1 = 30 ∧ val6 p.2 = 69)) ∧
    (∀ pages, ∀ p ∈ extract_coords_by_camera_numbers pages,
        ¬(val6 p.1 = 30 ∧ val6 p.2 = 69)) ∧
    (∀ pages, ∀ p ∈ extract_coords_combined pages,
        ¬(val6 p.1 = 30 ∧ val6 p.2 = 69)) := by
  refine ⟨?_, ?_, ?_, ?_, ?_, ?_⟩
  · intro pages df hdf p hp
    rw [extract_coords_eq] at hdf
    obtain rfl := Option.some_inj.mp hdf
    exact microBox_val6 (total_box hp)
  · intro pages p hp
    exact microBox_val6 (by_camera_box hp)
  · intro pages p hp
    exact microBox_val6 (combined_box hp)
  · intro pages df hdf p hp
    rw [extract_coords_eq] at hdf
    obtain rfl := Option.some_inj.mp hdf
    exact microBox_not30 (total_box hp)
  · intro pages p hp
    exact microBox_not30 (by_camera_box hp)
  · intro pages p hp
    exact microBox_not30 (combined_box hp)

/-- Witness for C1 at a concrete extraction. -/
theorem box_invariant_witness :
    (38 : ℚ) ≤ val6 41500000 ∧ val6 41500000 ≤ 43 ∧
    (60 : ℚ) ≤ val6 62500000 ∧ val6 62500000 ≤ 74 :=
  box_invariant.2.1 ["0012 41,5 62,5".toList] (41500000, 62500000)
    (by decide)

/-- C2: each extracted pair occurs exactly once in the output, and
inserting an already-present rounded tuple into the working set is a
no-op. -/
theorem dedup_unique :
    (∀ pages df, extract_coords pages = some df → ∀ p ∈ df,
        df.count p = 1) ∧
    (∀ pages, ∀ p ∈ extract_coords_by_camera_numbers pages,
        (extract_coords_by_camera_numbers pages).count p = 1) ∧
    (∀ pages, ∀ p ∈ extract_coords_combined pages,
        (extract_coords_combined pages).count p = 1) ∧
    (∀ (s : List (ℕ × ℕ)) (p : ℕ × ℕ), p ∈ s → sinsert s p = s) := by
  refine ⟨?_, ?_, ?_, fun s p h => sinsert_self h⟩
  · intro pages df hdf p hp
    rw [extract_coords_eq] at hdf
    obtain rfl := Option.some_inj.mp hdf
    exact count_one_of_nodup (total_nodup pages) hp
  · intro pages p hp
    exact count_one_of_nodup (by_camera_nodup pages) hp
  · intro pages p hp
    exact count_one_of_nodup (combined_nodup pages) hp

/-- Witness for C2: a pair appearing several times in the text is
reported once. -/
theorem dedup_unique_witness :
    (extract_coords_by_camera_numbers
      ["0012 38,5 66,25 38.5 66.250000".toList]).count
      (38500000, 66250000) = 1 :=
  dedup_unique.2.1 ["0012 38,5 66,25 38.5 66.250000".toList]
    (38500000, 66250000) (by decide)

/-- C3: every variant returns a sequence sorted ascending by latitude
then longitude, and extraction is deterministic: identical input text
yields the identical output sequence. -/
theorem sorted_deterministic :
    (∀ pages df, extract_coords pages = some df → List.Sorted valLe df) ∧
    (∀ pages, List.Sorted valLe (extract_coords_by_camera_numbers pages)) ∧
    (∀ pages, List.Sorted valLe (extract_coords_combined pages)) ∧
    (∀ pages pages', pages = pages' →
        extract_coords pages = extract_coords pages' ∧
        extract_coords_by_camera_numbers pages =
          extract_coords_by_camera_numbers pages' ∧
        extract_coords_combined pages = extract_coords_combined pages') := by
  refine ⟨?_, ?_, ?_, ?_⟩
  · intro pages df hdf
    rw [extract_coords_eq] at hdf
    obtain rfl := Option.some_inj.mp hdf
    exact (sorted_sortPairs (pages.foldl pageStepAllSkip [])).imp
      lexLe_valLe
  · intro pages
    exact (sorted_sortPairs (pages.foldl pageStepCam [])).imp lexLe_valLe
  · intro pages
    exact (sorted_sortPairs (pages.foldl pageStepCombined [])).imp
      lexLe_valLe
  · rintro pages pages' rfl
    exact ⟨rfl, rfl, rfl⟩

/-- Witness for C3 at a concrete extraction. -/
theorem sorted_deterministic_witness :
    List.Sorted valLe
      [(38100000, 66123456), (41500000, 62500000), (41500000, 69100000)] ∧
    extract_coords_combined ["0012 41,5 62,5".toList] =
      extract_coords_combined ["0012 41,5 62,5".toList] :=
  ⟨sorted_deterministic.1
      ["0012 41,5 62,5\n38,1 66.123456 41.5 69.1".toList]
      [(38100000, 66123456), (41500000, 62500000), (41500000, 69100000)]
      (by decide),
    (sorted_deterministic.2.2.2 ["0012 41,5 62,5".toList]
      ["0012 41,5 62,5".toList] rfl).2.2⟩

/-- C4: the combined strategy returns exactly the union of the
whole-text scan and the line-anchored scan on the same text, with
duplicates collapsed. -/
theorem combined_is_union :
    ∀ pages df, extract_coords pages = some df →
      (∀ p, p ∈ extract_coords_combined pages ↔
        (p ∈ df ∨ p ∈ extract_coords_by_camera_numbers pages)) ∧
      (extract_coords_combined pages).Nodup := by
  intro pages df hdf
  rw [extract_coords_eq] at hdf
  obtain rfl := Option.some_inj.mp hdf
  refine ⟨?_, combined_nodup pages⟩
  intro p
  rw [mem_combined, mem_total, mem_by_camera]
  constructor
  · rintro ⟨t, ht, hc⟩
    rcases mem_combCands.mp hc with h | h
    · exact Or.inr ⟨t, ht, h⟩
    · exact Or.inl ⟨t, ht, h⟩
  · rintro (⟨t, ht, h⟩ | ⟨t, ht, h⟩)
    · exact ⟨t, ht, mem_combCands.mpr (Or.inr h)⟩
    · exact ⟨t, ht, mem_combCands.mpr (Or.inl h)⟩

/-- Witness for C4 at a concrete extraction. -/
theorem combined_is_union_witness :
    ((41500000, 69100000) ∈ extract_coords_combined
        ["0012 41,5 62,5\n38,1 66.123456 41.5 69.1".toList] ↔
      ((41500000, 69100000) ∈
          ([(38100000, 66123456), (41500000, 62500000),
            (41500000, 69100000)] : List (ℕ × ℕ)) ∨
        (41500000, 69100000) ∈ extract_coords_by_camera_numbers
          ["0012 41,5 62,5\n38,1 66.123456 41.5 69.1".toList])) ∧
    (extract_coords_combined
      ["0012 41,5 62,5\n38,1 66.123456 41.5 69.1".toList]).Nodup :=
  ⟨(combined_is_union
      ["0012 41,5 62,5\n38,1 66.123456 41.5 69.1".toList]
      [(38100000, 66123456), (41500000, 62500000), (41500000, 69100000)]
      (by decide)).1 (41500000, 69100000),
    (combined_is_union
      ["0012 41,5 62,5\n38,1 66.123456 41.5 69.1".toList]
      [(38100000, 66123456), (41500000, 62500000), (41500000, 69100000)]
      (by decide)).2⟩

/-- C5: a token pair in which either side fails to parse is skipped
silently and never inserted, and the extraction pass never fails: on
every input `extract_coords` returns a result (every matched token
parses, so the missing `try`/`except` in `extract_coords` is never
exercised). -/
theorem malformed_skip :
    (∀ pages, ∃ df, extract_coords pages = some df) ∧
    (∀ (norm : Tok → Tok) (s : List (ℕ × ℕ)) (m : Tok × Tok),
        parseFloat (norm m.1) = none ∨ parseFloat (norm m.2) = none →
        stepSkip norm s m = s) := by
  refine ⟨fun pages => ⟨_, extract_coords_eq pages⟩, ?_⟩
  intro norm s m h
  unfold stepSkip
  cases h1 : parseFloat (norm m.1) with
  | none => rfl
  | some lat =>
    cases h2 : parseFloat (norm m.2) with
    | none => rfl
    | some lon =>
      rw [h1, h2] at h
      rcases h with h | h <;> simp at h

/-- Witness for C5: a malformed token (interior space) is skipped. -/
theorem malformed_skip_witness :
    (∃ df, extract_coords ["38.5 66.5".toList] = some df) ∧
    stepSkip normLine [] ("41.5 5".toList, "69.1".toList) = [] :=
  ⟨malformed_skip.1 ["38.5 66.5".toList],
    malformed_skip.2 normLine [] ("41.5 5".toList, "69.1".toList)
      (Or.inl (by decide))⟩

/-- C6: contrary to the spec (and to the source comment at line 31 and
the dead space-stripping `replace(" ", "")` at lines 32–33), the pattern
never matches a token with an embedded space: `41,555 616 69,123456`
produces no match at all, even though the normalizer would map
`41,555 616` to `41.555616`. -/
theorem space_token_never_matched :
    findall isSepAll "41,555 616 69,123456".toList = [] ∧
    extract_coords ["41,555 616 69,123456".toList] = some [] ∧
    normFull "41,555 616".toList = "41.555616".toList := by
  refine ⟨by decide, by decide, by decide⟩

/-- C7: every matched token is normalized identically by both
normalizers and parses successfully; a token with `,` and/or embedded
spaces normalizes (by `replace(" ","").replace(",",".")`) to the same
value as the token written with `.` and no spaces, e.g. `41,555 616`
to `41.555616`. -/
theorem normalization_correct :
    (∀ (wsp : Char → Bool) (text a b : Tok), (a, b) ∈ findall wsp text →
        normFull a = normLine a ∧ normFull b = normLine b ∧
        (∃ d, parseFloat (normFull a) = some d) ∧
        (∃ d, parseFloat (normFull b) = some d)) ∧
    parseFloat (normFull "41,555 616".toList) = some ⟨41555616, 6⟩ ∧
    parseFloat "41.555616".toList = some ⟨41555616, 6⟩ ∧
    Dec.val ⟨41555616, 6⟩ = 41.555616 := by
  refine ⟨?_, by decide, by decide, ?_⟩
  · intro wsp text a b h
    obtain ⟨ha, hb⟩ := findall_shape h
    have e1 := shaped_norm_eq latStart_digit ha
    have e2 := shaped_norm_eq lonStart_digit hb
    obtain ⟨da, hda⟩ := shaped_parse latStart_digit ha
    obtain ⟨db, hdb⟩ := shaped_parse lonStart_digit hb
    exact ⟨e1, e2, ⟨da, by rw [e1]; exact hda⟩, ⟨db, by rw [e2]; exact hdb⟩⟩
  · unfold Dec.val
    norm_num

/-- Witness for C7 on a concrete matched pair. -/
theorem normalization_correct_witness :
    normFull "41,5".toList = normLine "41,5".toList ∧
    normFull "69,1".toList = normLine "69,1".toList ∧
    (∃ d, parseFloat (normFull "41,5".toList) = some d) ∧
    (∃ d, parseFloat (normFull "69,1".toList) = some d) :=
  normalization_correct.1 isSepAll "41,5 69,1".toList "41,5".toList
    "69,1".toList (by decide)

/-- C8 counterexample: on the spec's input line
`Camera 0012 ... 41,555616 69,123456 ...` the line-anchored scan yields
nothing, because the stripped line begins with `Camera`, not with four
digits, so `re.match(r'^[0-9]{4}', …)` fails. -/
theorem camera_line_cex :
    extract_coords_by_camera_numbers
      ["Camera 0012 ... 41,555616 69,123456 ...".toList] = [] ∧
    (41555616, 69123456) ∉ extract_coords_by_camera_numbers
      ["Camera 0012 ... 41,555616 69,123456 ...".toList] ∧
    isCameraLine "Camera 0012 ... 41,555616 69,123456 ...".toList =
      false := by
  refine ⟨by decide, by decide, by decide⟩

/-- C8 amended: the line-anchored scan yields `(41.555616, 69.123456)`
for a line whose stripped text begins with the four digits `0012`,
e.g. `0012 Camera ... 41,555616 69,123456 ...`. -/
theorem camera_line_amended :
    extract_coords_by_camera_numbers
      ["0012 Camera ... 41,555616 69,123456 ...".toList] =
      [(41555616, 69123456)] ∧
    isCameraLine "0012 Camera ... 41,555616 69,123456 ...".toList =
      true ∧
    val6 41555616 = 41.555616 ∧ val6 69123456 = 69.123456 := by
  refine ⟨by decide, by decide, ?_, ?_⟩ <;> unfold val6 <;> norm_num

/-- C9 counterexample: output longitudes are not strictly below 70:
the matched longitude `69,9999999` lies in the box (`≤ 74`) and rounds
to exactly `70.0`. -/
theorem lon_lt_seventy_cex :
    extract_coords ["41,5 69,9999999".toList] =
      some [(41500000, 70000000)] ∧
    val6 70000000 = 70 ∧
    ¬(∀ pages df, extract_coords pages = some df →
        ∀ p ∈ df, val6 p.2 < 70) := by
  refine ⟨by decide, by (unfold val6; norm_num), ?_⟩
  intro hclaim
  have h := hclaim ["41,5 69,9999999".toList] [(41500000, 70000000)]
    (by decide) (41500000, 70000000) (by decide)
  have h' : (70000000 : ℕ) < 70 * 1000000 := val6_lt.mp (by exact_mod_cast h)
  omega

/-- C9 amended: every output longitude of every variant is at most 70
(the longitude token's integer part is `6` followed by one digit, so
its value is below 70, and rounding to six decimals can reach exactly
70); the box's upper bound 74 is unattainable. -/
theorem lon_le_seventy :
    (∀ pages df, extract_coords pages = some df → ∀ p ∈ df,
        (60 : ℚ) ≤ val6 p.2 ∧ val6 p.2 ≤ 70) ∧
    (∀ pages, ∀ p ∈ extract_coords_by_camera_numbers pages,
        (60 : ℚ) ≤ val6 p.2 ∧ val6 p.2 ≤ 70) ∧
    (∀ pages, ∀ p ∈ extract_coords_combined pages,
        (60 : ℚ) ≤ val6 p.2 ∧ val6 p.2 ≤ 70) := by
  refine ⟨?_, ?_, ?_⟩
  · intro pages df hdf p hp
    rw [extract_coords_eq] at hdf
    obtain rfl := Option.some_inj.mp hdf
    obtain ⟨_, _, h3, _⟩ := total_box hp
    exact ⟨by exact_mod_cast le_val6.mpr h3,
      by exact_mod_cast val6_le.mpr (total_lon hp)⟩
  · intro pages p hp
    obtain ⟨_, _, h3, _⟩ := by_camera_box hp
    exact ⟨by exact_mod_cast le_val6.mpr h3,
      by exact_mod_cast val6_le.mpr (by_camera_lon hp)⟩
  · intro pages p hp
    obtain ⟨_, _, h3, _⟩ := combined_box hp
    exact ⟨by exact_mod_cast le_val6.mpr h3,
      by exact_mod_cast val6_le.mpr (combined_lon hp)⟩

/-- Witness for the amended C9 at a concrete extraction. -/
theorem lon_le_seventy_witness :
    (60 : ℚ) ≤ val6 62500000 ∧ val6 62500000 ≤ 70 :=
  lon_le_seventy.2.1 ["0012 40,5 62,5".toList] (40500000, 62500000)
    (by decide)

/-- C10: every matched token consists of exactly a two-digit integer
part, a `.` or `,` separator, and at least one fractional digit;
coordinates written without a separator (`41 69`) or with one- or
three-digit integer parts are not matched. -/
theorem token_shape_exact :
    (∀ (wsp : Char → Bool) (text a b : Tok), (a, b) ∈ findall wsp text →
        isNumTok isLatStart a = true ∧ isNumTok isLonStart b = true) ∧
    findall isSepAll "41 69".toList = [] ∧
    findall isSepAll "4.5 69.123456".toList = [] ∧
    findall isSepAll "415.7 69.1".toList = [] := by
  refine ⟨fun wsp text a b h => findall_shape h, by decide, by decide,
    by decide⟩

/-- Witness for C10 on a concrete matched pair. -/
theorem token_shape_exact_witness :
    isNumTok isLatStart "38.1".toList = true ∧
    isNumTok isLonStart "66.123456".toList = true :=
  token_shape_exact.1 isSepAll "38.1 66.123456".toList "38.1".toList
    "66.123456".toList (by decide)

end Cameras
